import Mathlib

/-!
Verification of the ligand-identification extraction routine of the
AI_vs_Classical_Molecular_Docking repository.

The development shallow-embeds the recurring extraction procedure of the
Python scripts (`ache_only_extract.py`, `extract_ligands_split_dual.py`,
`ligand_mapping_full.py`, `realligand_mapping.py`,
`data/final_ligand_extraction.py`): residue names are lists of characters,
residue records carry the parsed residue name, the heteroatom flag field
(`residue.id[0]`) and an atom count; the per-script loops become folds.
Character-level predicates mirror Python's ASCII semantics on code points.
-/

/-- A textual token (residue name, identifier, file content) as a list of
characters, mirroring a Python `str` over ASCII code points. -/
abbrev ResName := List Char

/-- Code point of a character. -/
def chN (c : Char) : Nat := c.toNat

/-- Python `str.strip()` whitespace test for the characters that occur in
this data: space, tab, newline, carriage return, vertical tab, form feed
and the non-breaking space. -/
def isSpaceCh (c : Char) : Bool :=
  chN c = 32 || chN c = 9 || chN c = 10 || chN c = 13 ||
  chN c = 11 || chN c = 12 || chN c = 160

/-- ASCII decimal digit. -/
def isDigitCh (c : Char) : Bool := 48 ≤ chN c && chN c ≤ 57

/-- ASCII upper-case letter. -/
def isUpperCh (c : Char) : Bool := 65 ≤ chN c && chN c ≤ 90

/-- ASCII lower-case letter. -/
def isLowerCh (c : Char) : Bool := 97 ≤ chN c && chN c ≤ 122

/-- ASCII alphanumeric character. -/
def isAlnumCh (c : Char) : Bool := isUpperCh c || isLowerCh c || isDigitCh c

/-- Python regex `\w` word character over ASCII: alphanumeric or underscore. -/
def isWordCh (c : Char) : Bool := isAlnumCh c || chN c = 95

/-- Python `str.upper()` on one ASCII character. -/
def upperCh (c : Char) : Char :=
  if 97 ≤ chN c ∧ chN c ≤ 122 then Char.ofNat (chN c - 32) else c

/-- Python `str.upper()` over a token. -/
def upperName (l : ResName) : ResName := l.map upperCh

/-- Python `str.strip()`: drop leading and trailing whitespace. -/
def stripName (l : ResName) : ResName :=
  ((l.dropWhile isSpaceCh).reverse.dropWhile isSpaceCh).reverse

/-- The fixed solvent/ion exclusion set `SOLVENTS` shared by
`ache_only_extract.py`, `extract_ligands_split_dual.py`,
`ligand_mapping_full.py`, `bd2_only_exctact.py`, `extract_ligands_dual.py`,
`theligand_mapping.py` and `ligand_residue_test.py`. -/
def SOLVENTS : List ResName :=
  ["HOH".toList, "WAT".toList, "SO4".toList, "PO4".toList, "CL".toList,
   "NA".toList, "MG".toList, "ZN".toList, "K".toList, "CA".toList]

/-- The exclusion set `exclude_resnames` of `realligand_mapping.py`
(line 30).  Unlike `SOLVENTS` it does not contain `WAT`. -/
def exclude_resnames : List ResName :=
  ["HOH".toList, "SO4".toList, "PO4".toList, "CL".toList, "NA".toList,
   "MG".toList, "CA".toList, "ZN".toList, "K".toList]

/-- One residue as produced by the structure parser: the raw residue name
(`residue.get_resname()`), the hetero field of the residue id
(`residue.id[0]`, `" "` for standard polymer residues), and the number of
atoms the residue contains (never consulted by the extraction loops). -/
structure Residue where
  name : ResName
  hetfield : ResName
  atoms : Nat
deriving DecidableEq, Repr

/-- The test `residue.id[0] != " "`: the residue is a heteroatom-type residue. -/
def Residue.het (r : Residue) : Bool := r.hetfield ≠ [' ']

/-- The mutable loop state of the extraction scripts: `ligands` (the list
of candidate occurrences, in residue order), `all_residues` (the set of all
residue names seen, kept as a duplicate-free list) and `residue_counts`
(the `Counter`, kept as an association list in first-insertion order). -/
structure ExtractState where
  ligands : List ResName
  all_residues : List ResName
  residue_counts : List (ResName × Nat)
deriving Repr

/-- The empty loop state. -/
def initState : ExtractState := ⟨[], [], []⟩

/-- Python `set.add`: append a name unless already present. -/
def insertNew (s : List ResName) (n : ResName) : List ResName :=
  if n ∈ s then s else s ++ [n]

/-- Python `Counter[resname] += 1`: increment the count of a key of an association
list, appending a fresh key (with count 1) at the end, exactly as a Python
dict inserts in first-occurrence order. -/
def bump : List (ResName × Nat) → ResName → List (ResName × Nat)
  | [], n => [(n, 1)]
  | (m, c) :: rest, n =>
    if m = n then (m, c + 1) :: rest else (m, c) :: bump rest n

/-- The body of the residue loop of `ache_only_extract.py` lines 69–76
(identical in the other `Counter`-based scripts): strip the residue name,
record it in `all_residues`, and if the residue is heteroatom-type and its
name is not in `SOLVENTS`, append it to `ligands` and bump its count. -/
def stepRes (st : ExtractState) (r : Residue) : ExtractState :=
  let resname := stripName r.name
  let all := insertNew st.all_residues resname
  if r.het && !(decide (resname ∈ SOLVENTS)) then
    { ligands := st.ligands ++ [resname],
      all_residues := all,
      residue_counts := bump st.residue_counts resname }
  else
    { st with all_residues := all }

/-- The whole residue loop over the flattened model→chain→residue
sequence of one structure. -/
def runExtract (rs : List Residue) : ExtractState :=
  rs.foldl stepRes initState

/-- The largest count stored in a counter. -/
def maxCount (l : List (ResName × Nat)) : Nat :=
  l.foldr (fun p acc => max p.2 acc) 0

/-- Python `Counter.most_common(1)[0][0]`: Python's `most_common(1)` returns the
first key (in insertion order) whose count is maximal — `heapq.nlargest`
with `n = 1` is `max(items, key=count)` and `max` keeps the first maximal
element on ties. -/
def mostCommon1 (l : List (ResName × Nat)) : Option ResName :=
  (l.find? (fun p => p.2 == maxCount l)).map Prod.fst

/-- The sentinel `"None"` used when no candidate exists. -/
def NoneName : ResName := "None".toList

/-- The selection `most_common_ligand = residue_counts.most_common(1)[0][0] if
residue_counts else "None"` (`ache_only_extract.py` line 78,
`extract_ligands_split_dual.py` line 103). -/
def most_common_ligand (rs : List Residue) : ResName :=
  match mostCommon1 (runExtract rs).residue_counts with
  | some n => n
  | none => NoneName

/-- The candidate test applied to one residue by the loop body. -/
def isCandidate (r : Residue) : Bool :=
  r.het && !(decide (stripName r.name ∈ SOLVENTS))

/-- The sequence of candidate occurrences (stripped names), in residue
order: exactly the final value of the `ligands` list. -/
def candNames (rs : List Residue) : List ResName :=
  (rs.filter isCandidate).map (fun r => stripName r.name)

/-- Number of occurrences of a name in a list of names. -/
def countIn (l : List ResName) (n : ResName) : Nat :=
  (l.filter (fun m => m == n)).length

/-- Counter lookup: the stored count of a key, `0` when absent. -/
def lookupC : List (ResName × Nat) → ResName → Nat
  | [], _ => 0
  | (m, c) :: rest, n => if m = n then c else lookupC rest n

/-- The keys of a counter, in insertion order. -/
def keysC (l : List (ResName × Nat)) : List ResName := l.map Prod.fst

/-- The distinct names of a list in first-occurrence order (the key order
of a Python dict built by repeated insertion). -/
def firstDedup : List ResName → List ResName
  | [] => []
  | n :: rest => n :: firstDedup (rest.filter (fun m => m ≠ n))
termination_by l => l.length
decreasing_by
  simp only [List.length_cons]
  exact Nat.lt_succ_of_le (List.length_filter_le _ rest)

/-- Specification-side definition (claim wording): the largest occurrence
count attained by any candidate occurrence. -/
def maxOccur (L : List ResName) : Nat :=
  (L.map (fun n => countIn L n)).foldr max 0

/-- Specification-side definition (claim wording): the first candidate to
be encountered in the residue sequence whose occurrence count is maximal,
or the sentinel when no candidate exists. -/
def firstMaxCandidate (rs : List Residue) : ResName :=
  match (candNames rs).find?
      (fun n => countIn (candNames rs) n == maxOccur (candNames rs)) with
  | some n => n
  | none => NoneName

/-- A residue with its name pre-stripped, other fields unchanged. -/
def stripResidue (r : Residue) : Residue :=
  { r with name := stripName r.name }

/- ## Identifier normalization -/

/-- Python `str.replace("\xa0", "")`: remove every non-breaking space. -/
def removeNbsp (l : List Char) : List Char := l.filter (fun c => chN c ≠ 160)

/-- The cleaning applied to the raw `PDB ID` column by
`ache_only_extract.py` line 41: remove non-breaking spaces, then strip. -/
def cleanRaw (l : List Char) : List Char := stripName (removeNbsp l)

/-- The last `n` characters of a token. -/
def lastN (l : List Char) (n : Nat) : List Char := l.drop (l.length - n)

/-- Python `re.search(r'(\w{4})$', s)`: the pattern matches exactly when the
string has at least 4 characters and its last 4 characters are word
characters, in which case the captured group is those last 4 characters. -/
def matchTail4 (l : List Char) : Option (List Char) :=
  if 4 ≤ l.length ∧ (lastN l 4).all isWordCh then some (lastN l 4) else none

/-- The identifier normalization of `ache_only_extract.py` lines 41–42
(also `ligand_mapping_full.py` line 50): clean, match `(\w{4})$`,
upper-case, strip; `none` models the `NaN` produced when the pattern does
not match. -/
def ache_normalize (raw : List Char) : Option ResName :=
  (matchTail4 (cleanRaw raw)).map (fun t => stripName (upperName t))

/-- Python `re.search(r'(\w{4})')` (no anchor): the leftmost window of 4
consecutive word characters. -/
def firstWin4 : List Char → Option (List Char)
  | [] => none
  | c :: rest =>
    if ((c :: rest).take 4).length = 4 ∧ ((c :: rest).take 4).all isWordCh
    then some ((c :: rest).take 4)
    else firstWin4 rest

/-- The identifier normalization of `extract_ligands_split_dual.py`
line 63: unanchored `(\w{4})` extraction, then upper-case (no cleaning,
no final strip). -/
def split_dual_normalize (raw : List Char) : Option ResName :=
  (firstWin4 raw).map upperName

/-- Claim-side definition: the trailing run of alphanumeric characters of
a token. -/
def trailingAlnumRun (l : List Char) : List Char :=
  (l.reverse.takeWhile isAlnumCh).reverse

/-- In `extract_ligands_split_dual.py` line 64 (`dropna`): the rows that
survive to the download loop, each with its normalized code; a row whose
extraction produced `NaN` is dropped here. -/
def split_dual_kept (rows : List ResName) : List (ResName × ResName) :=
  rows.filterMap (fun raw => (split_dual_normalize raw).map (fun c => (raw, c)))

/-- Script `ache_only_extract.py` has no such drop: every input row keeps one
entry (its normalized id or the missing value) and enters the loop. -/
def ache_pdb_ids (rows : List ResName) : List (Option ResName) :=
  rows.map ache_normalize

/- ## Batch drivers (`ligand_mapping_full.py`, `ache_only_extract.py`) -/

/-- One input record of a batch run: the traceability ids, the normalized
code and the outcome of the fetch-and-parse of its structure (`ok` with
the parsed residues, or `error` with the exception message). -/
structure InRecord where
  uniqueID : ResName
  rawId : ResName
  pdbId : ResName
  outcome : Except ResName (List Residue)

/-- One output CSV row. -/
structure OutRow where
  uniqueID : ResName
  rawId : ResName
  pdbId : ResName
  ligandField : ResName
  candidatesField : ResName
  residuesField : ResName
deriving DecidableEq, Repr

/-- Python `<` on strings: lexicographic order on code points. -/
def nameLe : ResName → ResName → Bool
  | [], _ => true
  | _ :: _, [] => false
  | a :: as, b :: bs => if a = b then nameLe as bs else decide (chN a < chN b)

/-- Insertion step of `sorted`. -/
def insertSorted (n : ResName) : List ResName → List ResName
  | [] => [n]
  | m :: rest => if nameLe n m then n :: m :: rest else m :: insertSorted n rest

/-- Python `sorted` on a list of names. -/
def sortNames (l : List ResName) : List ResName := l.foldr insertSorted []

/-- Python `", ".join(...)`. -/
def joinComma : List ResName → ResName
  | [] => []
  | [n] => n
  | n :: rest => n ++ (", ".toList) ++ joinComma rest

/-- The success row built by `ligand_mapping_full.py` lines 89–96. -/
def successRow (r : InRecord) (resList : List Residue) : OutRow :=
  { uniqueID := r.uniqueID, rawId := r.rawId, pdbId := r.pdbId,
    ligandField := most_common_ligand resList,
    candidatesField :=
      if (runExtract resList).ligands = [] then "None".toList
      else joinComma (sortNames (firstDedup (runExtract resList).ligands)),
    residuesField := joinComma (sortNames (runExtract resList).all_residues) }

/-- The failure row built by the `except` block of
`ligand_mapping_full.py` lines 98–107: the error message lands in the
ligand field, the other fields read `N/A`. -/
def errorRow (r : InRecord) (e : ResName) : OutRow :=
  { uniqueID := r.uniqueID, rawId := r.rawId, pdbId := r.pdbId,
    ligandField := "Error: ".toList ++ e,
    candidatesField := "N/A".toList,
    residuesField := "N/A".toList }

/-- The batch loop of `ligand_mapping_full.py`: every record appends
exactly one row, failures included. -/
def ligand_mapping_full_driver (recs : List InRecord) : List OutRow :=
  recs.map (fun r =>
    match r.outcome with
    | .ok resList => successRow r resList
    | .error e => errorRow r e)

/-- The batch loop of `ache_only_extract.py` lines 50–91: its `except`
block prints and `continue`s, appending no row for a failed record. -/
def ache_only_driver (recs : List InRecord) : List OutRow :=
  recs.filterMap (fun r =>
    match r.outcome with
    | .ok resList => some (successRow r resList)
    | .error _ => none)

/-- Whether a record's fetch-and-parse succeeded. -/
def outcomeOk (r : InRecord) : Bool :=
  match r.outcome with
  | .ok _ => true
  | .error _ => false

/- ## Structure fetching (`data/final_ligand_extraction.py`,
`ache_only_extract.py`) -/

/-- The cache directory contents: one entry per code. -/
def lookupCache : List (ResName × ResName) → ResName → Option ResName
  | [], _ => none
  | (m, t) :: rest, n => if m = n then some t else lookupCache rest n

/-- The fetch of `data/final_ligand_extraction.py` lines 76–87: when the
cache file exists the network is not touched and the cache is unchanged;
otherwise one request is issued and its text written to the cache keyed by
code.  Result: the text used, the cache afterwards, and the number of
network requests issued. -/
def fetch_cached (remote : ResName → ResName) (cache : List (ResName × ResName))
    (code : ResName) : ResName × List (ResName × ResName) × Nat :=
  match lookupCache cache code with
  | some txt => (txt, cache, 0)
  | none => (remote code, cache ++ [(code, remote code)], 1)

/-- The fetch of `ache_only_extract.py` lines 54–57: `requests.get` is
issued unconditionally; no cache is consulted or written. -/
def ache_fetch (remote : ResName → ResName) (cache : List (ResName × ResName))
    (code : ResName) : ResName × List (ResName × ResName) × Nat :=
  (remote code, cache, 1)

/- ## `realligand_mapping.py` line scan -/

/-- Python slice `line[a:b]`. -/
def sliceL (l : List Char) (a b : Nat) : List Char := (l.drop a).take (b - a)

/-- Python `line.startswith(pre)`. -/
def startsWithL (l pre : List Char) : Bool := l.take pre.length == pre

/-- The ligand scan of `realligand_mapping.py` lines 40–46: for every
`HETATM` line take columns 17–20, strip, and when non-empty and (after
upper-casing) not in `exclude_resnames`, add the name to the ligand set. -/
def realligand_scan (lines : List (List Char)) : List ResName :=
  lines.foldl
    (fun ligands line =>
      if startsWithL line ("HETATM".toList) then
        let resname := stripName (sliceL line 17 20)
        if resname ≠ [] && !(decide (upperName resname ∈ exclude_resnames)) then
          insertNew ligands resname
        else ligands
      else ligands)
    []

/- ## Concrete inputs used by counterexamples and witnesses -/

/-- A `HETATM` record line whose residue-name columns (17–20) hold `WAT`. -/
def watLine : List Char := "HETATM    1  O   WAT A   1".toList

/-- Scenario C of the specification: candidates `JQ1` occurring as 2
residues and `UNL` as 5 residues, with arbitrary atom counts. -/
def scenarioC (a1 a2 b1 b2 b3 b4 b5 : Nat) : List Residue :=
  [⟨"JQ1".toList, "H_JQ1".toList, a1⟩,
   ⟨"UNL".toList, "H_UNL".toList, b1⟩,
   ⟨"UNL".toList, "H_UNL".toList, b2⟩,
   ⟨"JQ1".toList, "H_JQ1".toList, a2⟩,
   ⟨"UNL".toList, "H_UNL".toList, b3⟩,
   ⟨"UNL".toList, "H_UNL".toList, b4⟩,
   ⟨"UNL".toList, "H_UNL".toList, b5⟩]

/-- A record whose fetch failed with an HTTP error. -/
def failedRecord : InRecord :=
  { uniqueID := "ACHE_01".toList, rawId := "1ABC".toList,
    pdbId := "1ABC".toList,
    outcome := Except.error ("404 Client Error".toList) }

/-- A residue list used by witnesses: water, a duplicated candidate and a
polymer residue. -/
def witnessResidues : List Residue :=
  [⟨"HOH".toList, "W".toList, 3⟩,
   ⟨"7QZ".toList, "H_7QZ".toList, 20⟩,
   ⟨" JQ1 ".toList, "H_JQ1".toList, 30⟩,
   ⟨"7QZ".toList, "H_7QZ".toList, 20⟩,
   ⟨" CL ".toList, "H_ CL".toList, 1⟩,
   ⟨"ALA".toList, [' '], 5⟩]

/-- A concrete cache with one entry. -/
def cacheWithEntry : List (ResName × ResName) :=
  [("1ABC".toList, "CACHED PDB TEXT".toList)]

/-- A concrete remote endpoint: every code yields fresh text. -/
def remoteStub : ResName → ResName := fun _ => "REMOTE PDB TEXT".toList


/-- Claim-side predicate: the token ends in (at least) 4 word characters,
which is exactly when the anchored pattern `(\w{4})$` matches. -/
def hasWordTail4 (l : List Char) : Bool :=
  4 ≤ l.length && (lastN l 4).all isWordCh

/-- Default record used with `List.getD`. -/
def defaultRecord : InRecord :=
  { uniqueID := [], rawId := [], pdbId := [], outcome := Except.error [] }

/-- Default row used with `List.getD`. -/
def defaultRow : OutRow :=
  { uniqueID := [], rawId := [], pdbId := [],
    ligandField := [], candidatesField := [], residuesField := [] }

/- ## Characterization of the extraction loop -/

lemma candNames_cons (r : Residue) (rest : List Residue) :
    candNames (r :: rest) =
      if isCandidate r then stripName r.name :: candNames rest
      else candNames rest := by
  simp only [candNames, List.filter_cons]
  split <;> simp_all

lemma stepRes_eq (st : ExtractState) (r : Residue) :
    stepRes st r =
      if isCandidate r then
        { ligands := st.ligands ++ [stripName r.name],
          all_residues := insertNew st.all_residues (stripName r.name),
          residue_counts := bump st.residue_counts (stripName r.name) }
      else
        { st with all_residues := insertNew st.all_residues (stripName r.name) } := by
  simp only [stepRes, isCandidate]

lemma foldl_stepRes_ligands (rs : List Residue) (st : ExtractState) :
    (rs.foldl stepRes st).ligands = st.ligands ++ candNames rs := by
  induction rs generalizing st with
  | nil => simp [candNames]
  | cons r rest ih =>
    simp only [List.foldl_cons, ih, stepRes_eq, candNames_cons]
    by_cases h : isCandidate r = true <;> simp [h]

lemma foldl_stepRes_counts (rs : List Residue) (st : ExtractState) :
    (rs.foldl stepRes st).residue_counts =
      (candNames rs).foldl bump st.residue_counts := by
  induction rs generalizing st with
  | nil => simp [candNames]
  | cons r rest ih =>
    simp only [List.foldl_cons, ih, stepRes_eq, candNames_cons]
    by_cases h : isCandidate r = true <;> simp [h]

lemma mem_insertNew {s : List ResName} {n m : ResName} :
    m ∈ insertNew s n ↔ m ∈ s ∨ m = n := by
  simp only [insertNew]
  split <;> rename_i h
  · constructor
    · exact fun hm => Or.inl hm
    · rintro (hm | rfl)
      · exact hm
      · exact h
  · simp

lemma mem_foldl_stepRes_all (rs : List Residue) (st : ExtractState) (n : ResName) :
    n ∈ (rs.foldl stepRes st).all_residues ↔
      n ∈ st.all_residues ∨ n ∈ rs.map (fun r => stripName r.name) := by
  induction rs generalizing st with
  | nil => simp
  | cons r rest ih =>
    simp only [List.foldl_cons, ih, stepRes_eq, List.map_cons, List.mem_cons]
    by_cases h : isCandidate r = true <;>
      simp [h, mem_insertNew] <;> tauto

lemma runExtract_ligands (rs : List Residue) :
    (runExtract rs).ligands = candNames rs := by
  simpa [initState] using foldl_stepRes_ligands rs initState

lemma runExtract_counts (rs : List Residue) :
    (runExtract rs).residue_counts = (candNames rs).foldl bump [] := by
  simpa [initState] using foldl_stepRes_counts rs initState

lemma mem_runExtract_all (rs : List Residue) (n : ResName) :
    n ∈ (runExtract rs).all_residues ↔
      n ∈ rs.map (fun r => stripName r.name) := by
  simpa [initState] using mem_foldl_stepRes_all rs initState n

/- ## Counter lemmas -/

lemma lookupC_bump (l : List (ResName × Nat)) (n m : ResName) :
    lookupC (bump l n) m = if m = n then lookupC l n + 1 else lookupC l m := by
  induction l with
  | nil =>
    simp only [bump, lookupC]
    by_cases h : n = m
    · subst h; simp
    · simp [h, Ne.symm h]
  | cons p rest ih =>
    obtain ⟨k, c⟩ := p
    simp only [bump]
    by_cases hk : k = n
    · subst hk
      simp only [if_pos rfl, lookupC]
      by_cases hm : k = m
      · subst hm; simp
      · simp [hm, Ne.symm hm]
    · simp only [if_neg hk, lookupC, ih]
      by_cases hm : k = m
      · subst hm
        simp [hk]
      · simp [hm]

lemma keysC_bump (l : List (ResName × Nat)) (n : ResName) :
    keysC (bump l n) =
      if n ∈ keysC l then keysC l else keysC l ++ [n] := by
  induction l with
  | nil => simp [bump, keysC]
  | cons p rest ih =>
    obtain ⟨k, c⟩ := p
    by_cases hk : k = n
    · subst hk; simp [bump, keysC]
    · simp only [bump, if_neg hk, keysC, List.map_cons] at *
      rw [ih]
      by_cases hn : n ∈ List.map Prod.fst rest
      · simp [hn, List.mem_cons]
      · have hnk : ¬ (n = k ∨ n ∈ List.map Prod.fst rest) := by
          rintro (h | h)
          · exact hk h.symm
          · exact hn h
        simp only [List.mem_cons, if_neg hn, if_neg hnk]
        simp

lemma mem_keysC_bump (l : List (ResName × Nat)) (n m : ResName) :
    m ∈ keysC (bump l n) ↔ m ∈ keysC l ∨ m = n := by
  rw [keysC_bump]
  by_cases hn : n ∈ keysC l
  · simp only [if_pos hn]
    constructor
    · exact Or.inl
    · rintro (h | rfl)
      · exact h
      · exact hn
  · simp [if_neg hn]

lemma keysC_bump_nodup (l : List (ResName × Nat)) (n : ResName)
    (h : (keysC l).Nodup) : (keysC (bump l n)).Nodup := by
  rw [keysC_bump]
  by_cases hn : n ∈ keysC l
  · simpa [hn] using h
  · simp only [hn, if_false]
    simpa [List.nodup_append] using ⟨h, hn⟩

lemma bump_ne_nil (l : List (ResName × Nat)) (n : ResName) :
    bump l n ≠ [] := by
  cases l with
  | nil => simp [bump]
  | cons p rest =>
    obtain ⟨k, c⟩ := p
    by_cases hk : k = n <;> simp [bump, hk]

lemma foldl_bump_eq_nil (l : List ResName) (acc : List (ResName × Nat))
    (h : l.foldl bump acc = []) : acc = [] ∧ l = [] := by
  induction l generalizing acc with
  | nil => exact ⟨h, rfl⟩
  | cons n rest ih =>
    obtain ⟨h1, h2⟩ := ih (bump acc n) h
    exact absurd h1 (bump_ne_nil acc n)

lemma lookupC_foldl_bump (l : List ResName) (acc : List (ResName × Nat))
    (n : ResName) :
    lookupC (l.foldl bump acc) n = lookupC acc n + countIn l n := by
  induction l generalizing acc with
  | nil => simp [countIn]
  | cons m rest ih =>
    simp only [List.foldl_cons, ih, lookupC_bump, countIn, List.filter_cons]
    by_cases h : m = n
    · subst h
      simp only [beq_self_eq_true, if_pos rfl, if_true, List.length_cons, countIn]
      omega
    · have h' : ¬ n = m := Ne.symm h
      simp [h, h', countIn]

lemma mem_keysC_foldl_bump (l : List ResName) (acc : List (ResName × Nat))
    (n : ResName) :
    n ∈ keysC (l.foldl bump acc) ↔ n ∈ keysC acc ∨ n ∈ l := by
  induction l generalizing acc with
  | nil => simp
  | cons m rest ih =>
    simp only [List.foldl_cons, ih, mem_keysC_bump, List.mem_cons]
    tauto

lemma keysC_foldl_bump_nodup (l : List ResName) (acc : List (ResName × Nat))
    (h : (keysC acc).Nodup) : (keysC (l.foldl bump acc)).Nodup := by
  induction l generalizing acc with
  | nil => exact h
  | cons m rest ih => exact ih _ (keysC_bump_nodup acc m h)

lemma entry_eq_lookupC (l : List (ResName × Nat)) (p : ResName × Nat)
    (hnd : (keysC l).Nodup) (hp : p ∈ l) : p.2 = lookupC l p.1 := by
  induction l with
  | nil => cases hp
  | cons q rest ih =>
    obtain ⟨k, c⟩ := q
    simp only [keysC, List.map_cons, List.nodup_cons] at hnd
    rcases List.mem_cons.mp hp with h | h
    · subst h; simp [lookupC]
    · have hk : p.1 ≠ k := by
        intro he
        exact hnd.1 (he ▸ (List.mem_map.mpr ⟨p, h, rfl⟩))
      simp only [lookupC, if_neg (Ne.symm hk)]
      exact ih hnd.2 h

lemma entry_mem_of_key (l : List (ResName × Nat)) (n : ResName)
    (h : n ∈ keysC l) : (n, lookupC l n) ∈ l := by
  induction l with
  | nil => simp [keysC] at h
  | cons q rest ih =>
    obtain ⟨k, c⟩ := q
    by_cases hk : k = n
    · subst hk; simp [lookupC]
    · simp only [keysC, List.map_cons, List.mem_cons] at h
      rcases h with h | h
      · exact absurd h.symm hk
      · have := ih (by simpa [keysC] using h)
        simp only [lookupC, if_neg hk]
        exact List.mem_cons_of_mem _ this

lemma mem_le_maxCount (l : List (ResName × Nat)) (p : ResName × Nat)
    (hp : p ∈ l) : p.2 ≤ maxCount l := by
  induction l with
  | nil => cases hp
  | cons q rest ih =>
    rcases List.mem_cons.mp hp with h | h
    · subst h; simp [maxCount, Nat.le_max_left]
    · exact le_trans (ih h) (by simp [maxCount, Nat.le_max_right])

lemma maxCount_le (l : List (ResName × Nat)) (b : Nat)
    (h : ∀ p ∈ l, p.2 ≤ b) : maxCount l ≤ b := by
  induction l with
  | nil => simp [maxCount]
  | cons q rest ih =>
    simp only [maxCount, List.foldr_cons]
    have h1 := h q (List.mem_cons_self q rest)
    have h2 := ih (fun p hp => h p (List.mem_cons_of_mem q hp))
    simp only [maxCount] at h2
    omega

lemma foldr_max_mem (l : List Nat) (h : l ≠ []) : l.foldr max 0 ∈ l := by
  induction l with
  | nil => exact absurd rfl h
  | cons x rest ih =>
    cases rest with
    | nil => simp
    | cons y t =>
      rcases Nat.le_total x ((y :: t).foldr max 0) with hle | hle
      · simp only [List.foldr_cons] at *
        rw [Nat.max_eq_right hle]
        exact List.mem_cons_of_mem x (ih (by simp))
      · simp only [List.foldr_cons] at *
        rw [Nat.max_eq_left hle]
        exact List.mem_cons_self _ _

lemma mem_le_foldr_max (l : List Nat) (x : Nat) (hx : x ∈ l) :
    x ≤ l.foldr max 0 := by
  induction l with
  | nil => cases hx
  | cons y rest ih =>
    rcases List.mem_cons.mp hx with h | h
    · subst h; simp [Nat.le_max_left]
    · exact le_trans (ih h) (by simp [Nat.le_max_right])

lemma foldr_max_le (l : List Nat) (b : Nat) (h : ∀ x ∈ l, x ≤ b) :
    l.foldr max 0 ≤ b := by
  induction l with
  | nil => simp
  | cons y rest ih =>
    simp only [List.foldr_cons]
    have h1 := h y (List.mem_cons_self y rest)
    have h2 := ih (fun x hx => h x (List.mem_cons_of_mem y hx))
    omega

/- ## Key order and the `most_common(1)` characterization -/

lemma keysC_foldl_bump_eq (l : List ResName) (acc : List (ResName × Nat)) :
    keysC (l.foldl bump acc) =
      keysC acc ++ firstDedup (l.filter (fun n => !(decide (n ∈ keysC acc)))) := by
  induction l generalizing acc with
  | nil => simp [firstDedup]
  | cons n rest ih =>
    rw [List.foldl_cons, ih (bump acc n), keysC_bump, List.filter_cons]
    by_cases hn : n ∈ keysC acc
    · rw [if_pos hn]
      have hd : (!decide (n ∈ keysC acc)) = false := by simp [hn]
      rw [hd, if_neg (by simp)]
    · rw [if_neg hn]
      have hd : (!decide (n ∈ keysC acc)) = true := by simp [hn]
      rw [hd, if_pos rfl, List.append_assoc]
      have hfil : rest.filter (fun m => !(decide (m ∈ keysC acc ++ [n]))) =
          (rest.filter (fun m => !(decide (m ∈ keysC acc)))).filter
            (fun m => m ≠ n) := by
        rw [List.filter_filter]
        apply List.filter_congr
        intro x _
        by_cases h1 : x ∈ keysC acc <;> by_cases h2 : x = n <;>
          simp [h1, h2]
      rw [hfil, firstDedup, List.singleton_append]

lemma keysC_counts_eq_firstDedup (L : List ResName) :
    keysC (L.foldl bump []) = firstDedup L := by
  rw [keysC_foldl_bump_eq]
  have hfil : L.filter (fun n => !(decide (n ∈ keysC ([] : List (ResName × Nat))))) = L := by
    apply List.filter_eq_self.mpr
    intro a _
    simp [keysC]
  rw [hfil]
  simp [keysC]

lemma find?_filter_of_imp (l : List ResName) (p q : ResName → Bool)
    (h : ∀ x, q x = true → p x = true) :
    (l.filter p).find? q = l.find? q := by
  induction l with
  | nil => rfl
  | cons x rest ih =>
    by_cases hp : p x = true
    · rw [List.filter_cons_of_pos hp]
      by_cases hq : q x = true
      · simp [List.find?_cons, hq]
      · simp only [Bool.not_eq_true] at hq
        simp [List.find?_cons, hq, ih]
    · have hq : q x = false := by
        cases hqx : q x with
        | false => rfl
        | true => exact absurd (h x hqx) hp
      rw [List.filter_cons_of_neg (by simpa using hp)]
      rw [ih]
      simp [List.find?_cons, hq]

lemma find?_firstDedup (l : List ResName) (q : ResName → Bool) :
    (firstDedup l).find? q = l.find? q := by
  induction l using firstDedup.induct with
  | case1 => rw [firstDedup]
  | case2 n rest ih =>
    rw [firstDedup]
    by_cases hq : q n = true
    · simp [List.find?_cons, hq]
    · simp only [Bool.not_eq_true] at hq
      simp only [List.find?_cons, hq]
      rw [ih]
      exact find?_filter_of_imp rest _ q
        (fun x hx => by
          have hxn : x ≠ n := by
            intro he
            rw [he, hq] at hx
            cases hx
          simp [hxn])

lemma find?_map_fst (l : List (ResName × Nat)) (q : ResName → Bool) :
    (l.find? (fun p => q p.1)).map Prod.fst = (keysC l).find? q := by
  induction l with
  | nil => rfl
  | cons p rest ih =>
    by_cases hq : q p.1 = true
    · simp [keysC, List.find?_cons, hq]
    · simp only [Bool.not_eq_true] at hq
      simp only [keysC, List.map_cons, List.find?_cons, hq]
      simpa [keysC] using ih

lemma find?_congr_mem (l : List (ResName × Nat)) (p q : (ResName × Nat) → Bool)
    (h : ∀ x ∈ l, p x = q x) : l.find? p = l.find? q := by
  induction l with
  | nil => rfl
  | cons x rest ih =>
    have hx := h x (List.mem_cons_self x rest)
    by_cases hp : p x = true
    · simp [List.find?_cons, hp, hx ▸ hp]
    · simp only [Bool.not_eq_true] at hp
      have hq : q x = false := hx ▸ hp
      simp only [List.find?_cons, hp, hq]
      exact ih (fun y hy => h y (List.mem_cons_of_mem x hy))

lemma countIn_le_maxOccur (L : List ResName) (n : ResName) (hn : n ∈ L) :
    countIn L n ≤ maxOccur L :=
  mem_le_foldr_max _ _ (List.mem_map.mpr ⟨n, hn, rfl⟩)

lemma lookupC_counts (L : List ResName) (n : ResName) :
    lookupC (L.foldl bump []) n = countIn L n := by
  simpa [lookupC] using lookupC_foldl_bump L [] n

lemma keysC_counts_nodup (L : List ResName) :
    (keysC (L.foldl bump [])).Nodup :=
  keysC_foldl_bump_nodup L [] (by simp [keysC])

lemma maxCount_counts_eq_maxOccur (L : List ResName) :
    maxCount (L.foldl bump []) = maxOccur L := by
  apply Nat.le_antisymm
  · apply maxCount_le
    intro p hp
    have h2 := entry_eq_lookupC _ p (keysC_counts_nodup L) hp
    have hkey : p.1 ∈ keysC (L.foldl bump []) := List.mem_map.mpr ⟨p, hp, rfl⟩
    have hmem : p.1 ∈ L := by
      have := (mem_keysC_foldl_bump L [] p.1).mp hkey
      simpa [keysC] using this
    rw [h2, lookupC_counts]
    exact countIn_le_maxOccur L p.1 hmem
  · apply foldr_max_le
    intro x hx
    obtain ⟨n, hn, rfl⟩ := List.mem_map.mp hx
    have hkey : n ∈ keysC (L.foldl bump []) :=
      (mem_keysC_foldl_bump L [] n).mpr (Or.inr hn)
    have hment := entry_mem_of_key _ n hkey
    calc countIn L n = lookupC (L.foldl bump []) n := (lookupC_counts L n).symm
    _ ≤ maxCount (L.foldl bump []) := mem_le_maxCount _ _ hment

lemma mostCommon1_eq_seq_find (L : List ResName) :
    mostCommon1 (L.foldl bump []) =
      L.find? (fun n => countIn L n == maxOccur L) := by
  simp only [mostCommon1]
  rw [find?_congr_mem _ _ (fun p => countIn L p.1 == maxOccur L)
    (fun p hp => by
      show (p.2 == maxCount (List.foldl bump [] L)) =
        (countIn L p.1 == maxOccur L)
      rw [entry_eq_lookupC _ p (keysC_counts_nodup L) hp, lookupC_counts,
        maxCount_counts_eq_maxOccur])]
  rw [find?_map_fst _ (fun n => countIn L n == maxOccur L),
    keysC_counts_eq_firstDedup]
  exact find?_firstDedup L _

lemma most_common_ligand_eq_find (rs : List Residue) :
    most_common_ligand rs =
      match (candNames rs).find?
          (fun n => countIn (candNames rs) n == maxOccur (candNames rs)) with
      | some n => n
      | none => NoneName := by
  simp only [most_common_ligand, runExtract_counts, mostCommon1_eq_seq_find]

lemma countIn_candNames (rs : List Residue) (n : ResName) :
    countIn (candNames rs) n =
      (rs.filter (fun r => isCandidate r && stripName r.name == n)).length := by
  induction rs with
  | nil => rfl
  | cons r rest ih =>
    rw [candNames_cons, List.filter_cons]
    by_cases hc : isCandidate r = true
    · rw [if_pos hc]
      by_cases hn : stripName r.name == n
      · simp only [countIn, List.filter_cons, hn, hc, Bool.true_and, if_true,
          List.length_cons]
        simp only [countIn] at ih
        omega
      · simp only [Bool.not_eq_true] at hn
        simp only [countIn, List.filter_cons, hn, hc, Bool.true_and,
          Bool.false_eq_true, if_false]
        exact ih
    · simp only [Bool.not_eq_true] at hc
      simp only [hc, Bool.false_eq_true, if_false, Bool.false_and]
      exact ih

lemma runExtract_atoms_irrelevant (rs : List Residue) (f : Residue → Nat) :
    runExtract (rs.map (fun r => ⟨r.name, r.hetfield, f r⟩)) = runExtract rs := by
  simp only [runExtract]
  rw [List.foldl_map]
  rfl

lemma foldr_max_mem_of_ne_nil (L : List ResName) (h : L ≠ []) :
    ∃ n ∈ L, countIn L n = maxOccur L := by
  have hmem : maxOccur L ∈ L.map (fun n => countIn L n) := by
    apply foldr_max_mem
    simpa using h
  obtain ⟨m, hmL, hmeq⟩ := List.mem_map.mp hmem
  exact ⟨m, hmL, hmeq⟩

/- ## Whitespace stripping -/

lemma dropWhile_idem (p : Char → Bool) (l : List Char) :
    (l.dropWhile p).dropWhile p = l.dropWhile p := by
  induction l with
  | nil => rfl
  | cons c rest ih =>
    by_cases h : p c = true
    · simp [List.dropWhile_cons, h, ih]
    · simp [List.dropWhile_cons, h]

lemma dropWhile_eq_self_of_prefix (p : Char → Bool) (l s : List Char)
    (hl : l.dropWhile p = l) (hs : s <+: l) : s.dropWhile p = s := by
  cases l with
  | nil =>
    have hn : s = [] := List.prefix_nil.mp hs
    subst hn; rfl
  | cons c t =>
    have hc : p c = false := by
      by_cases h : p c = true
      · rw [List.dropWhile_cons, if_pos h] at hl
        have hlen := congrArg List.length hl
        simp only [List.length_cons] at hlen
        have hle := (List.dropWhile_sublist (l := t) p).length_le
        omega
      · simpa using h
    cases s with
    | nil => rfl
    | cons a u =>
      have ha : a = c := (List.cons_prefix_cons.mp hs).1
      subst ha
      simp [List.dropWhile_cons, hc]

lemma stripName_prefix_dropWhile (l : ResName) :
    stripName l <+: l.dropWhile isSpaceCh := by
  have f2 : ((l.dropWhile isSpaceCh).reverse.dropWhile isSpaceCh) <:+
      (l.dropWhile isSpaceCh).reverse := List.dropWhile_suffix _
  have := List.reverse_prefix.mpr f2
  simpa [stripName] using this

lemma stripName_idem (l : ResName) : stripName (stripName l) = stripName l := by
  have f1 : (l.dropWhile isSpaceCh).dropWhile isSpaceCh = l.dropWhile isSpaceCh :=
    dropWhile_idem _ _
  have f4 : (stripName l).dropWhile isSpaceCh = stripName l :=
    dropWhile_eq_self_of_prefix _ _ _ f1 (stripName_prefix_dropWhile l)
  show ((((stripName l).dropWhile isSpaceCh).reverse).dropWhile isSpaceCh).reverse
      = stripName l
  rw [f4]
  have hrev : (stripName l).reverse =
      (l.dropWhile isSpaceCh).reverse.dropWhile isSpaceCh := by
    simp [stripName]
  rw [hrev, dropWhile_idem]
  simp [stripName]

lemma dropWhile_eq_self_of_all (p : Char → Bool) (l : List Char)
    (h : ∀ c ∈ l, p c = false) : l.dropWhile p = l := by
  cases l with
  | nil => rfl
  | cons c rest =>
    rw [List.dropWhile_cons, if_neg (by simp [h c (List.mem_cons_self c rest)])]

lemma stripName_eq_self_of_all (l : ResName)
    (h : ∀ c ∈ l, isSpaceCh c = false) : stripName l = l := by
  rw [stripName, dropWhile_eq_self_of_all _ _ h,
    dropWhile_eq_self_of_all _ _ (fun c hc => h c (List.mem_reverse.mp hc)),
    List.reverse_reverse]

/- ## Character facts for upper-casing -/

lemma toNat_ofNat_valid (n : Nat) (h : n < 55296) : (Char.ofNat n).toNat = n := by
  have hv : Nat.isValidChar n := Or.inl h
  unfold Char.ofNat
  rw [dif_pos hv]
  simp [Char.ofNatAux, Char.toNat, UInt32.toNat]

lemma isAlnum_ranges (c : Char) (h : isAlnumCh c = true) :
    (65 ≤ chN c ∧ chN c ≤ 90) ∨ (97 ≤ chN c ∧ chN c ≤ 122) ∨
    (48 ≤ chN c ∧ chN c ≤ 57) := by
  simp only [isAlnumCh, isUpperCh, isLowerCh, isDigitCh, Bool.or_eq_true,
    Bool.and_eq_true, decide_eq_true_eq] at h
  omega

lemma isSpaceCh_upperCh_eq_false (c : Char) (h : isAlnumCh c = true) :
    isSpaceCh (upperCh c) = false := by
  have hr := isAlnum_ranges c h
  unfold upperCh
  by_cases hc : 97 ≤ chN c ∧ chN c ≤ 122
  · rw [if_pos hc]
    have hlt : chN c - 32 < 55296 := by omega
    have hval : chN (Char.ofNat (chN c - 32)) = chN c - 32 := by
      unfold chN
      exact toNat_ofNat_valid _ hlt
    simp only [isSpaceCh, hval, Bool.or_eq_false_iff, decide_eq_false_iff_not]
    omega
  · rw [if_neg hc]
    simp only [isSpaceCh, Bool.or_eq_false_iff, decide_eq_false_iff_not]
    omega

lemma stripName_upperName_of_alnum (l : ResName)
    (h : ∀ c ∈ l, isAlnumCh c = true) :
    stripName (upperName l) = upperName l := by
  apply stripName_eq_self_of_all
  intro x hx
  obtain ⟨c, hc, rfl⟩ := List.mem_map.mp hx
  exact isSpaceCh_upperCh_eq_false c (h c hc)

/- ## The anchored normalizer -/

lemma trailing_split (l : List Char) :
    (l.reverse.dropWhile isAlnumCh).reverse ++ trailingAlnumRun l = l := by
  rw [trailingAlnumRun, ← List.reverse_append, List.takeWhile_append_dropWhile,
    List.reverse_reverse]

lemma all_trailingAlnumRun (l : List Char) :
    ∀ c ∈ trailingAlnumRun l, isAlnumCh c = true := by
  intro c hc
  rw [trailingAlnumRun, List.mem_reverse] at hc
  exact List.mem_takeWhile_imp hc

lemma matchTail4_of_trailing (l : List Char)
    (h : (trailingAlnumRun l).length = 4) :
    matchTail4 l = some (trailingAlnumRun l) := by
  obtain ⟨pre, hsplit⟩ : ∃ pre, pre ++ trailingAlnumRun l = l :=
    ⟨_, trailing_split l⟩
  have hlen : l.length = pre.length + 4 := by
    rw [← hsplit, List.length_append, h]
  have hlast : lastN l 4 = trailingAlnumRun l := by
    have h4 : pre.length + 4 - 4 = pre.length := by omega
    calc lastN l 4 = List.drop pre.length l := by rw [lastN, hlen, h4]
    _ = List.drop pre.length (pre ++ trailingAlnumRun l) := by rw [hsplit]
    _ = trailingAlnumRun l := List.drop_left _ _
  have hword : (lastN l 4).all isWordCh = true := by
    rw [hlast]
    apply List.all_eq_true.mpr
    intro c hc
    have := all_trailingAlnumRun l c hc
    simp [isWordCh, this]
  rw [matchTail4, if_pos ⟨by omega, hword⟩, hlast]

/- ## Stripping invariance of the loop -/

lemma stepRes_strip (st : ExtractState) (r : Residue) :
    stepRes st (stripResidue r) = stepRes st r := by
  have h1 : (stripResidue r).name = stripName r.name := rfl
  have h2 : (stripResidue r).hetfield = r.hetfield := rfl
  simp only [stepRes, Residue.het, h1, h2, stripName_idem]

lemma runExtract_strip (rs : List Residue) :
    runExtract (rs.map stripResidue) = runExtract rs := by
  simp only [runExtract]
  suffices h : ∀ st, (rs.map stripResidue).foldl stepRes st = rs.foldl stepRes st
    from h initState
  induction rs with
  | nil => intro st; rfl
  | cons r rest ih =>
    intro st
    simp only [List.map_cons, List.foldl_cons, stepRes_strip]
    exact ih _

/- ## Batch driver lemmas -/

lemma full_driver_getD (recs : List InRecord) (i : Nat) (hi : i < recs.length) :
    (ligand_mapping_full_driver recs).getD i defaultRow =
      (match (recs.getD i defaultRecord).outcome with
       | .ok resList => successRow (recs.getD i defaultRecord) resList
       | .error e => errorRow (recs.getD i defaultRecord) e) := by
  induction recs generalizing i with
  | nil => cases hi
  | cons r rest ih =>
    cases i with
    | zero => rfl
    | succ j =>
      simp only [List.length_cons, Nat.succ_lt_succ_iff] at hi
      simpa [ligand_mapping_full_driver] using ih j hi

lemma ache_driver_length (recs : List InRecord) :
    (ache_only_driver recs).length = (recs.filter outcomeOk).length := by
  induction recs with
  | nil => rfl
  | cons r rest ih =>
    simp only [ache_only_driver, List.filterMap_cons, List.filter_cons]
    cases h : r.outcome with
    | ok resList =>
      have hok : outcomeOk r = true := by simp [outcomeOk, h]
      simp only [hok, if_true, List.length_cons]
      simp only [ache_only_driver] at ih
      rw [ih]
    | error e =>
      have hok : outcomeOk r = false := by simp [outcomeOk, h]
      simp only [hok, Bool.false_eq_true, if_false]
      simp only [ache_only_driver] at ih
      rw [ih]

/- ## Claim theorems -/

/-- C1: for every residue list, if the set of ligand candidates is empty
the primary ligand equals the sentinel `"None"`; if it is non-empty, the
primary ligand is a member of the candidate set whose occurrence count is
greater than or equal to every other candidate's occurrence count. -/
theorem primary_ligand_selection (rs : List Residue) :
    ((runExtract rs).ligands = [] → most_common_ligand rs = NoneName) ∧
    ((runExtract rs).ligands ≠ [] →
      most_common_ligand rs ∈ (runExtract rs).ligands ∧
      ∀ n ∈ (runExtract rs).ligands,
        countIn (runExtract rs).ligands n ≤
          countIn (runExtract rs).ligands (most_common_ligand rs)) := by
  constructor
  · intro h
    have hL : candNames rs = [] := by rw [← runExtract_ligands]; exact h
    rw [most_common_ligand_eq_find, hL]
    rfl
  · intro h
    have hL : candNames rs ≠ [] := by rw [← runExtract_ligands]; exact h
    obtain ⟨m, hmL, hmeq⟩ := foldr_max_mem_of_ne_nil _ hL
    cases hfind : (candNames rs).find?
        (fun n => countIn (candNames rs) n == maxOccur (candNames rs)) with
    | none =>
      exfalso
      have hnone := List.find?_eq_none.mp hfind m hmL
      simp [hmeq] at hnone
    | some w =>
      have hw1 : w ∈ candNames rs := List.mem_of_find?_eq_some hfind
      have hw2 : countIn (candNames rs) w = maxOccur (candNames rs) := by
        have := List.find?_some hfind
        simpa using this
      have hml : most_common_ligand rs = w := by
        rw [most_common_ligand_eq_find, hfind]
      rw [runExtract_ligands, hml]
      refine ⟨hw1, fun n hn => ?_⟩
      rw [hw2]
      exact countIn_le_maxOccur _ n hn

/-- Witness for C1 on a concrete residue list with candidates. -/
theorem primary_ligand_selection_witness :
    (runExtract witnessResidues).ligands ≠ [] ∧
    most_common_ligand witnessResidues ∈ (runExtract witnessResidues).ligands :=
  ⟨by decide, ((primary_ligand_selection witnessResidues).2 (by decide)).1⟩

/-- C2 (amended): in the `Counter`-based extraction scripts no name of the
fixed `SOLVENTS` exclusion set ever appears among the ligand candidates.
(The claim's further assertion that every copy of the routine uses the same
set fails: see the counterexample on `realligand_mapping.py`.) -/
theorem no_solvent_in_candidates (rs : List Residue) (n : ResName)
    (h : n ∈ (runExtract rs).ligands) : n ∉ SOLVENTS := by
  rw [runExtract_ligands] at h
  obtain ⟨r, hr, rfl⟩ := List.mem_map.mp h
  have hc := (List.mem_filter.mp hr).2
  simp only [isCandidate, Bool.and_eq_true, Bool.not_eq_true',
    decide_eq_false_iff_not] at hc
  exact hc.2

/-- Witness for C2's amended theorem. -/
theorem no_solvent_in_candidates_witness :
    "7QZ".toList ∈ (runExtract witnessResidues).ligands ∧
    "7QZ".toList ∉ SOLVENTS :=
  ⟨by decide, no_solvent_in_candidates witnessResidues _ (by decide)⟩

/-- Counterexample to C2 as stated: `realligand_mapping.py` uses the
9-element `exclude_resnames` set, which omits `WAT`, so a heteroatom
residue named `WAT` — a member of the claim's fixed exclusion set — lands
in that script's ligand-candidate set. -/
theorem wat_reaches_realligand_candidates :
    "WAT".toList ∈ realligand_scan [watLine] ∧
    "WAT".toList ∈ SOLVENTS ∧
    "WAT".toList ∉ exclude_resnames := by decide

/-- C3: every ligand candidate name also appears in `all_residues`. -/
theorem candidates_subset_all_residues (rs : List Residue) (n : ResName)
    (h : n ∈ (runExtract rs).ligands) : n ∈ (runExtract rs).all_residues := by
  rw [runExtract_ligands] at h
  obtain ⟨r, hr, rfl⟩ := List.mem_map.mp h
  exact (mem_runExtract_all rs _).mpr
    (List.mem_map.mpr ⟨r, (List.mem_filter.mp hr).1, rfl⟩)

/-- Witness for C3. -/
theorem candidates_subset_all_residues_witness :
    "JQ1".toList ∈ (runExtract witnessResidues).ligands ∧
    "JQ1".toList ∈ (runExtract witnessResidues).all_residues :=
  ⟨by decide, candidates_subset_all_residues witnessResidues _ (by decide)⟩

/-- C4 (amended): for the anchored normalizer of `ache_only_extract.py`
(and the other scripts using `(\w{4})$`), every raw identifier whose
cleaned form ends in a run of exactly 4 alphanumeric characters normalizes
to that trailing token upper-cased.  (The unanchored copy in
`extract_ligands_split_dual.py` instead returns the FIRST window of 4 word
characters: see the counterexample.) -/
theorem trailing_token_normalization (raw : List Char)
    (h : (trailingAlnumRun (cleanRaw raw)).length = 4) :
    ache_normalize raw = some (upperName (trailingAlnumRun (cleanRaw raw))) := by
  simp only [ache_normalize, matchTail4_of_trailing _ h, Option.map]
  rw [stripName_upperName_of_alnum _ (all_trailingAlnumRun _)]

/-- Witness for C4's theorem on a padded lower-case identifier. -/
theorem trailing_token_normalization_witness :
    (trailingAlnumRun (cleanRaw (" ab 1xyz ".toList))).length = 4 ∧
    ache_normalize (" ab 1xyz ".toList) =
      some (upperName (trailingAlnumRun (cleanRaw (" ab 1xyz ".toList)))) :=
  ⟨by decide, trailing_token_normalization _ (by decide)⟩

/-- Counterexample to C4 as stated: on an identifier ending in the
4-alphanumeric run `1XYZ` but carrying prefix text, the
`extract_ligands_split_dual.py` normalizer (unanchored pattern) returns
`ABCD`, not the trailing token. -/
theorem split_dual_takes_first_window :
    trailingAlnumRun ("abcd 1XYZ".toList) = "1XYZ".toList ∧
    ("1XYZ".toList : List Char).length = 4 ∧
    split_dual_normalize ("abcd 1XYZ".toList) = some ("ABCD".toList) ∧
    ("ABCD".toList : List Char) ≠ upperName ("1XYZ".toList) := by decide

/-- C5 (amended): an identifier whose cleaned form does not end in 4 word
characters yields a missing value (`none`, pandas `NaN`) from the anchored
normalizer — not an error; every row kept by `extract_ligands_split_dual.py`
after its `dropna` carries a successfully extracted code; and
`ache_only_extract.py` drops nothing at normalization time — one entry per
input row survives to the download loop. -/
theorem missing_token_normalization (rows : List ResName) (raw code : ResName) :
    (hasWordTail4 (cleanRaw raw) = false → ache_normalize raw = none) ∧
    ((raw, code) ∈ split_dual_kept rows → split_dual_normalize raw = some code) ∧
    (ache_pdb_ids rows).length = rows.length := by
  refine ⟨?_, ?_, by simp [ache_pdb_ids]⟩
  · intro h
    have h' : ¬ (4 ≤ (cleanRaw raw).length ∧
        (lastN (cleanRaw raw) 4).all isWordCh = true) := by
      rintro ⟨h1, h2⟩
      rw [hasWordTail4] at h
      simp [h1, h2] at h
    simp only [ache_normalize, matchTail4, if_neg h', Option.map]
  · intro h
    simp only [split_dual_kept, List.mem_filterMap] at h
    obtain ⟨raw', hmem, heq⟩ := h
    cases hnorm : split_dual_normalize raw' with
    | none => rw [hnorm] at heq; cases heq
    | some c =>
      rw [hnorm] at heq
      simp only [Option.map, Option.some.injEq, Prod.mk.injEq] at heq
      obtain ⟨h1, h2⟩ := heq
      rw [← h1, hnorm, h2]

/-- Witness for C5's amended theorem: a token with no 4-run of word
characters yields `none`, and a kept split-dual row was normalized. -/
theorem missing_token_normalization_witness :
    hasWordTail4 (cleanRaw ("ab?".toList)) = false ∧
    ache_normalize ("ab?".toList) = none ∧
    ("1ABC".toList, "1ABC".toList) ∈ split_dual_kept ["1ABC".toList] ∧
    split_dual_normalize ("1ABC".toList) = some ("1ABC".toList) :=
  ⟨by decide,
   (missing_token_normalization [] ("ab?".toList) []).1 (by decide),
   by decide,
   (missing_token_normalization ["1ABC".toList] ("1ABC".toList)
     ("1ABC".toList)).2.1 (by decide)⟩

/-- Counterexample to C5 as stated: `AB_C` has no 4-character alphanumeric
suffix (its trailing alphanumeric run is the single character `C`), yet
normalization does not fail — the `\w` pattern accepts the underscore and
produces `AB_C`. -/
theorem underscore_suffix_not_rejected :
    (trailingAlnumRun (cleanRaw ("AB_C".toList))).length < 4 ∧
    ache_normalize ("AB_C".toList) = some ("AB_C".toList) := by decide

/-- C9: primary-ligand selection is deterministic — on every residue
sequence `most_common_ligand` equals the specification-side
`firstMaxCandidate`, the first candidate encountered in the residue
sequence among those with the maximal occurrence count (so ties go to the
first-encountered candidate). -/
theorem primary_ligand_tie_break (rs : List Residue) :
    most_common_ligand rs = firstMaxCandidate rs := by
  rw [most_common_ligand_eq_find, firstMaxCandidate]

/-- C10: classification is insensitive to surrounding whitespace on
residue names — pre-stripping every residue name changes nothing — and no
name in any output set carries surrounding whitespace. -/
theorem stripped_names_everywhere (rs : List Residue) :
    runExtract (rs.map stripResidue) = runExtract rs ∧
    (∀ n ∈ (runExtract rs).all_residues, stripName n = n) ∧
    (∀ n ∈ (runExtract rs).ligands, stripName n = n) := by
  refine ⟨runExtract_strip rs, ?_, ?_⟩
  · intro n hn
    obtain ⟨r, _, rfl⟩ := List.mem_map.mp ((mem_runExtract_all rs n).mp hn)
    exact stripName_idem _
  · intro n hn
    rw [runExtract_ligands] at hn
    obtain ⟨r, _, rfl⟩ := List.mem_map.mp hn
    exact stripName_idem _

/-- Witness for C10: the padded `" CL "` residue of the witness list is
recorded as the stripped token `CL` (and, being a solvent, excluded from
candidates), and recorded names carry no whitespace. -/
theorem stripped_names_everywhere_witness :
    "CL".toList ∈ (runExtract witnessResidues).all_residues ∧
    "CL".toList ∉ (runExtract witnessResidues).ligands ∧
    stripName ("CL".toList) = "CL".toList :=
  ⟨by decide, by decide,
   (stripped_names_everywhere witnessResidues).2.1 _ (by decide)⟩

/-- C6 (amended): no record's failure aborts the batch.
`ligand_mapping_full.py` emits exactly one output row per input record —
a failed record's row carries the error marker in its ligand field — while
`ache_only_extract.py`'s `except` block skips the failed record entirely,
so its output has one row per successfully processed record only (see the
counterexample). -/
theorem batch_failure_semantics (recs : List InRecord) :
    (ligand_mapping_full_driver recs).length = recs.length ∧
    (∀ i e, i < recs.length →
      (recs.getD i defaultRecord).outcome = Except.error e →
      (ligand_mapping_full_driver recs).getD i defaultRow =
        errorRow (recs.getD i defaultRecord) e) ∧
    (ache_only_driver recs).length = (recs.filter outcomeOk).length := by
  refine ⟨by simp [ligand_mapping_full_driver], ?_, ache_driver_length recs⟩
  intro i e hi herr
  rw [full_driver_getD recs i hi, herr]

/-- Witness for C6's amended theorem: one failed record, one error row. -/
theorem batch_failure_semantics_witness :
    (ligand_mapping_full_driver [failedRecord]).length = 1 ∧
    (ligand_mapping_full_driver [failedRecord]).getD 0 defaultRow =
      errorRow (([failedRecord] : List InRecord).getD 0 defaultRecord)
        ("404 Client Error".toList) :=
  ⟨(batch_failure_semantics [failedRecord]).1,
   (batch_failure_semantics [failedRecord]).2.1 0 ("404 Client Error".toList)
     (by decide) rfl⟩

/-- Counterexample to C6 as stated: `ache_only_extract.py` produces NO
output row for a record whose fetch failed — its `except` block prints and
`continue`s — so the output table does not contain one row per processed
input row. -/
theorem ache_driver_drops_failed_row :
    outcomeOk failedRecord = false ∧
    ache_only_driver [failedRecord] = [] := ⟨rfl, rfl⟩

/-- C7: candidate counting is at residue granularity: the stored count of
a name is exactly the number of residues whose stripped name equals it and
which pass the heteroatom/non-solvent test; atom counts never influence
the result; and scenario C (candidates `JQ1`×2 and `UNL`×5, any atom
counts) selects `UNL`. -/
theorem counting_is_residue_granular :
    (∀ (rs : List Residue) (n : ResName),
      lookupC (runExtract rs).residue_counts n =
        (rs.filter (fun r => isCandidate r && stripName r.name == n)).length) ∧
    (∀ (rs : List Residue) (f : Residue → Nat),
      most_common_ligand (rs.map (fun r => ⟨r.name, r.hetfield, f r⟩)) =
        most_common_ligand rs) ∧
    (∀ a1 a2 b1 b2 b3 b4 b5 : Nat,
      most_common_ligand (scenarioC a1 a2 b1 b2 b3 b4 b5) = "UNL".toList) := by
  refine ⟨?_, ?_, ?_⟩
  · intro rs n
    rw [runExtract_counts, lookupC_counts, countIn_candNames]
  · intro rs f
    simp only [most_common_ligand, runExtract_atoms_irrelevant]
  · intro a1 a2 b1 b2 b3 b4 b5
    rfl

/-- C8 (amended): the cached fetcher of `data/final_ligand_extraction.py`
issues zero network requests and leaves the cache unchanged when the cache
file exists, and issues exactly one request and writes the text keyed by
code when it does not.  (`ache_only_extract.py`'s fetcher consults no
cache: see the counterexample.) -/
theorem cache_hit_no_network (remote : ResName → ResName)
    (cache : List (ResName × ResName)) (code txt : ResName) :
    (lookupCache cache code = some txt →
      fetch_cached remote cache code = (txt, cache, 0)) ∧
    (lookupCache cache code = none →
      fetch_cached remote cache code =
        (remote code, cache ++ [(code, remote code)], 1)) := by
  constructor <;> intro h <;> simp [fetch_cached, h]

/-- Witness for C8's amended theorem on a concrete cache. -/
theorem cache_hit_no_network_witness :
    lookupCache cacheWithEntry ("1ABC".toList) =
      some ("CACHED PDB TEXT".toList) ∧
    fetch_cached remoteStub cacheWithEntry ("1ABC".toList) =
      ("CACHED PDB TEXT".toList, cacheWithEntry, 0) :=
  ⟨by decide,
   (cache_hit_no_network remoteStub cacheWithEntry ("1ABC".toList)
     ("CACHED PDB TEXT".toList)).1 (by decide)⟩

/-- Counterexample to C8 as stated: the fetcher of `ache_only_extract.py`
issues one network request even for a code whose cache entry exists. -/
theorem ache_fetch_ignores_cache :
    lookupCache cacheWithEntry ("1ABC".toList) =
      some ("CACHED PDB TEXT".toList) ∧
    (ache_fetch remoteStub cacheWithEntry ("1ABC".toList)).2.2 = 1 :=
  ⟨by decide, rfl⟩
